import Mathlib

/-!
Verification of the mcp-knowledge-mind hybrid-retrieval and ingestion core.

The definitions below are a shallow embedding of the JavaScript source:
* `ContentSplitter.smartChunk` (@domain/services/ContentSplitter.js and the
  legacy `smartChunk` in the monolithic server file);
* the query-embedding cache `cleanup` (SqliteDocsRepository.cleanup);
* the RRF fusion and hydration steps of `SqliteDocsRepository.searchHybrid`;
* the ingestion pipeline of `LearnRepositoryUseCase` / `LearnFilesystemUseCase`
  together with `SqliteDocsRepository.saveChunks`, plus the legacy
  non-transactional chunk replacement of the monolithic server;
* the two `AskKnowledgeUseCase.execute` variants (cache-consulting and plain).

JS strings are modelled through their character lists (`String.data`);
JS number arithmetic on scores/distances is modelled over `ℝ`, word counts
over `ℕ`.
-/

namespace KnowledgeMind

/-! ### JS string primitives

`jsWsChar` models the JavaScript whitespace class (restricted to the ASCII
whitespace characters that can actually occur in a line after splitting on
newlines).  `jsTrim` models `String.prototype.trim`, `jsWordCount` models
`line.split(/\s+/).length` (which counts one more than the number of maximal
whitespace runs: a leading or trailing run contributes an empty segment, and
the empty string splits to `[""]`). -/

def jsWsChar (c : Char) : Bool :=
  c = ' ' || c = '\t' || c = '\n' || c = '\r'

def jsTrim (s : String) : String :=
  String.mk (((s.toList.dropWhile jsWsChar).reverse.dropWhile jsWsChar).reverse)

/-- Count of maximal whitespace runs; `prevWs` records whether the previous
character was whitespace. -/
def wsRunsAux : Bool → List Char → ℕ
  | _, [] => 0
  | prevWs, c :: rest =>
    if jsWsChar c then (if prevWs then 0 else 1) + wsRunsAux true rest
    else wsRunsAux false rest

/-- Models JS `line.split(/\s+/).length`. -/
def jsWordCount (s : String) : ℕ :=
  wsRunsAux false s.toList + 1

def strStartsWith (s pre : String) : Bool :=
  pre.toList.isPrefixOf s.toList

def strDrop (s : String) (n : ℕ) : String :=
  String.mk (s.toList.drop n)

/-- Models `text.split('\n')` at the character-list level. -/
def splitLinesList : List Char → List (List Char)
  | [] => [[]]
  | c :: rest =>
    match splitLinesList rest with
    | [] => [[c]]
    | r0 :: rs => if c = '\n' then [] :: r0 :: rs else (c :: r0) :: rs

def splitLines (s : String) : List String :=
  (splitLinesList s.toList).map String.mk

/-- Models `array.join('\n')`. -/
def joinLines : List String → String
  | [] => ""
  | [l] => l
  | l :: rest => l ++ "\n" ++ joinLines rest

/-! ### ContentSplitter.smartChunk -/

structure ChunkOut where
  header : String
  content : String
  wordCount : ℕ
deriving DecidableEq, Repr

structure SCState where
  chunks : List ChunkOut
  currentHeader : String
  currentChunk : List String
  currentWordCount : ℕ
deriving DecidableEq, Repr

/-- `finalizeChunk()`: push the accumulated chunk if its trimmed content is
longer than 50 characters, then reset the accumulator. -/
def finalizeChunk (st : SCState) : SCState :=
  if st.currentChunk = [] then st
  else
    let content := jsTrim (joinLines st.currentChunk)
    { chunks :=
        if 50 < content.length then
          st.chunks ++ [⟨st.currentHeader, content, st.currentWordCount⟩]
        else st.chunks
      currentHeader := st.currentHeader
      currentChunk := []
      currentWordCount := 0 }

/-- `trimmedLine.startsWith('## ') || ... ('### ') || ... ('#### ')`. -/
def isMidHeading (t : String) : Bool :=
  strStartsWith t "## " || strStartsWith t "### " || strStartsWith t "#### "

/-- `trimmedLine.startsWith('# ') && trimmedLine.length > 1`. -/
def isMainHeading (t : String) : Bool :=
  strStartsWith t "# " && decide (1 < t.length)

/-- `trimmedLine.replace(/^#+\s*/, '')`. -/
def stripHashes (t : String) : String :=
  String.mk ((t.toList.dropWhile (fun c => c = '#')).dropWhile jsWsChar)

/-- The synthetic continuation marker line. -/
def contMarker (h : String) : String :=
  "(Continuation of: " ++ h ++ ")"

/-- The `else` branch of the line loop: a non-heading line.  The soft boundary
finalizes the running chunk and seeds a continuation; the hard boundary
(1.5 × maxChunkSize, expressed over ℕ as `3 * max < 2 * wc`) force-finalizes. -/
def processBodyLine (maxChunkSize : ℕ) (st : SCState) (line : String) : SCState :=
  let lwc := jsWordCount line
  let st1 :=
    if maxChunkSize < st.currentWordCount + lwc ∧ st.currentChunk ≠ [] then
      let stf := finalizeChunk st
      { stf with
          currentChunk := [contMarker st.currentHeader]
          currentWordCount := jsWordCount (contMarker st.currentHeader) }
    else st
  let st2 := { st1 with
                 currentChunk := st1.currentChunk ++ [line]
                 currentWordCount := st1.currentWordCount + lwc }
  if 3 * maxChunkSize < 2 * st2.currentWordCount then finalizeChunk st2 else st2

/-- One iteration of the `for` loop over lines. -/
def processLine (maxChunkSize : ℕ) (st : SCState) (line : String) : SCState :=
  let t := jsTrim line
  if isMidHeading t then
    let st1 := finalizeChunk st
    let h := jsTrim (stripHashes t)
    { st1 with
        currentHeader := if h = "" then st.currentHeader else h
        currentChunk := st1.currentChunk ++ [line]
        currentWordCount := st1.currentWordCount + jsWordCount line }
  else if isMainHeading t then
    let st1 := finalizeChunk st
    { st1 with
        currentHeader := jsTrim (strDrop t 2)
        currentChunk := [line]
        currentWordCount := jsWordCount line }
  else
    processBodyLine maxChunkSize st line

def initialSCState : SCState :=
  ⟨[], "Introduction", [], 0⟩

def smartChunkLines (maxChunkSize : ℕ) (lines : List String) : List ChunkOut :=
  (finalizeChunk (lines.foldl (processLine maxChunkSize) initialSCState)).chunks

/-- `ContentSplitter.smartChunk(text, maxChunkSize)`. -/
def smartChunk (maxChunkSize : ℕ) (text : String) : List ChunkOut :=
  if jsTrim text = "" then [] else smartChunkLines maxChunkSize (splitLines text)

/-! ### Instrumented splitter

`annRun` is a ghost-instrumented copy of `smartChunk` used to relate the
produced chunks back to the source lines: it records, for every finalized
group, the exact list of lines that went into it, each tagged with a flag
telling whether the line is a synthetic continuation marker (`true`) or a
source line (`false`), and it does not apply the 50-character floor. -/

structure AnnGroup where
  header : String
  rawLines : List (Bool × String)
  wordCount : ℕ
deriving DecidableEq, Repr

structure AnnState where
  groups : List AnnGroup
  currentHeader : String
  currentChunk : List (Bool × String)
  currentWordCount : ℕ
deriving DecidableEq, Repr

def annFinalize (st : AnnState) : AnnState :=
  if st.currentChunk = [] then st
  else
    { groups := st.groups ++ [⟨st.currentHeader, st.currentChunk, st.currentWordCount⟩]
      currentHeader := st.currentHeader
      currentChunk := []
      currentWordCount := 0 }

def annBodyLine (maxChunkSize : ℕ) (st : AnnState) (line : String) : AnnState :=
  let lwc := jsWordCount line
  let st1 :=
    if maxChunkSize < st.currentWordCount + lwc ∧ st.currentChunk ≠ [] then
      let stf := annFinalize st
      { stf with
          currentChunk := [(true, contMarker st.currentHeader)]
          currentWordCount := jsWordCount (contMarker st.currentHeader) }
    else st
  let st2 := { st1 with
                 currentChunk := st1.currentChunk ++ [(false, line)]
                 currentWordCount := st1.currentWordCount + lwc }
  if 3 * maxChunkSize < 2 * st2.currentWordCount then annFinalize st2 else st2

def annLine (maxChunkSize : ℕ) (st : AnnState) (line : String) : AnnState :=
  let t := jsTrim line
  if isMidHeading t then
    let st1 := annFinalize st
    let h := jsTrim (stripHashes t)
    { st1 with
        currentHeader := if h = "" then st.currentHeader else h
        currentChunk := st1.currentChunk ++ [(false, line)]
        currentWordCount := st1.currentWordCount + jsWordCount line }
  else if isMainHeading t then
    let st1 := annFinalize st
    { st1 with
        currentHeader := jsTrim (strDrop t 2)
        currentChunk := [(false, line)]
        currentWordCount := jsWordCount line }
  else
    annBodyLine maxChunkSize st line

def initialAnnState : AnnState :=
  ⟨[], "Introduction", [], 0⟩

def annRun (maxChunkSize : ℕ) (lines : List String) : AnnState :=
  annFinalize (lines.foldl (annLine maxChunkSize) initialAnnState)

/-- What `finalizeChunk` makes of a recorded group: trim the joined lines and
keep the chunk only above the 50-character floor. -/
def projGroup (g : AnnGroup) : Option ChunkOut :=
  let content := jsTrim (joinLines (g.rawLines.map Prod.snd))
  if 50 < content.length then some ⟨g.header, content, g.wordCount⟩ else none

/-- The source (non-synthetic) lines of a tagged line list. -/
def srcLines (l : List (Bool × String)) : List String :=
  (l.filter (fun p => !p.1)).map Prod.snd

/-- The source lines recorded in a finalized group. -/
def groupSrcLines (g : AnnGroup) : List String :=
  srcLines g.rawLines

/-! ### Query-embedding cache cleanup (SqliteDocsRepository.cleanup)

A cache row is modelled by its `query_hash` primary key and `last_accessed`
timestamp (the only columns `cleanup` reads).  The SQL
`ORDER BY last_accessed ASC LIMIT (CASE WHEN COUNT(*) > 1000 THEN COUNT(*) -
1000 ELSE 0 END)` subquery is modelled by sorting the table by
`last_accessed` and taking the overflow prefix; the outer
`DELETE ... WHERE query_hash IN (...)` is the filter. -/

structure CacheEntry where
  queryHash : ℕ
  lastAccessed : ℕ
deriving DecidableEq, Repr

def cacheLe (a b : CacheEntry) : Prop :=
  a.lastAccessed ≤ b.lastAccessed

instance : DecidableRel cacheLe := fun a b => Nat.decLe a.lastAccessed b.lastAccessed

instance : IsTotal CacheEntry cacheLe :=
  ⟨fun a b => Nat.le_total a.lastAccessed b.lastAccessed⟩

instance : IsTrans CacheEntry cacheLe :=
  ⟨fun _ _ _ h1 h2 => Nat.le_trans h1 h2⟩

/-- `CASE WHEN COUNT(*) > 1000 THEN COUNT(*) - 1000 ELSE 0 END`. -/
def evictCount (n : ℕ) : ℕ :=
  if 1000 < n then n - 1000 else 0

/-- `SqliteDocsRepository.cleanup()`. -/
def cleanup (cache : List CacheEntry) : List CacheEntry :=
  let removed :=
    ((List.insertionSort cacheLe cache).take (evictCount cache.length)).map
      CacheEntry.queryHash
  cache.filter (fun e => decide (e.queryHash ∉ removed))

/-- The cache table produced by inserting 1500 distinct entries, entry `i`
last accessed at time `i`. -/
def cache1500 : List CacheEntry :=
  (List.range 1500).map (fun i => ⟨i, i⟩)

/-- The legacy `cleanupCache`'s limit expression
`(SELECT COUNT(*) - 1000 FROM query_embeddings_cache)` — an integer that is
negative whenever the table holds fewer than 1000 rows; there is no `CASE`
guard in this variant. -/
def legacyLimit (n : ℕ) : ℤ :=
  (n : ℤ) - 1000

/-- The legacy monolithic server's `cleanupCache()`: same DELETE with the
unguarded LIMIT subquery.  SQLite treats a negative `LIMIT` as "no limit",
so the ordered subquery then yields every `query_hash`. -/
def legacyCleanupCache (cache : List CacheEntry) : List CacheEntry :=
  let sorted := List.insertionSort cacheLe cache
  let removed :=
    (if legacyLimit cache.length < 0 then sorted
     else sorted.take (legacyLimit cache.length).toNat).map CacheEntry.queryHash
  cache.filter (fun e => decide (e.queryHash ∉ removed))

/-! ### RRF fusion and hydration (SqliteDocsRepository.searchHybrid)

Lexical candidates are `(rowid, bm25_score)` pairs in index order, vector
candidates are `(chunk_id, distance)` pairs in index order; scores live in
`ℝ`.  The JS `Map` of fused scores is modelled as an association list in
insertion order, and `Array.prototype.sort` with comparator
`(a, b) => b[1] - a[1]` as a stable sort by descending score. -/

def mapGetD (m : List (ℕ × ℝ)) (i : ℕ) : ℝ :=
  match m.find? (fun p => p.1 == i) with
  | some p => p.2
  | none => 0

def mapSet (m : List (ℕ × ℝ)) (i : ℕ) (v : ℝ) : List (ℕ × ℝ) :=
  if m.any (fun p => p.1 == i) then m.map (fun p => if p.1 == i then (i, v) else p)
  else m ++ [(i, v)]

noncomputable section

/-- Contribution of a lexical candidate at zero-based rank `r` with raw
(BM25, lower-is-better) score `s`:
`(1/(k+rank+1)) * (1 + Math.log(1 + Math.max(0, -bm25_score)))`. -/
def lexContribution (k r : ℕ) (s : ℝ) : ℝ :=
  (1 / ((k : ℝ) + r + 1)) * (1 + Real.log (1 + max 0 (-s)))

/-- Contribution of a vector candidate at zero-based rank `r` with distance
`d`: `(1/(k+rank+1)) * (1 - distance)`. -/
def vecContribution (k r : ℕ) (d : ℝ) : ℝ :=
  (1 / ((k : ℝ) + r + 1)) * (1 - d)

/-- The two `forEach` accumulation passes over the score map, with `k = 60`. -/
def fuseScores (fts vec : List (ℕ × ℝ)) : List (ℕ × ℝ) :=
  let afterFts := fts.enum.foldl
    (fun m ra => mapSet m ra.2.1 (mapGetD m ra.2.1 + lexContribution 60 ra.1 ra.2.2)) []
  vec.enum.foldl
    (fun m ra => mapSet m ra.2.1 (mapGetD m ra.2.1 + vecContribution 60 ra.1 ra.2.2)) afterFts

/-- `Array.from(scores.entries()).sort((a,b) => b[1]-a[1]).slice(0, limit)
.map(e => e[0])`. -/
def rankedIds (fts vec : List (ℕ × ℝ)) (limit : ℕ) : List ℕ :=
  ((List.insertionSort (fun a b : ℕ × ℝ => b.2 ≤ a.2) (fuseScores fts vec)).take
    limit).map Prod.fst

end

structure ResultRow where
  id : ℕ
  header : String
  content : String
  path : String
deriving DecidableEq, Repr

/-- The hydration step: `rankedIds.map(id => finalResults.find(r => r.id ===
id) || null).filter(Boolean)`. -/
def hydrate (ids : List ℕ) (rows : List ResultRow) : List ResultRow :=
  (ids.map (fun i => rows.find? (fun r => r.id == i))).reduceOption

/-- `searchHybrid` after the two index queries: fuse, rank, hydrate. -/
noncomputable def searchHybridModel (fts vec : List (ℕ × ℝ)) (limit : ℕ)
    (rows : List ResultRow) : List ResultRow :=
  hydrate (rankedIds fts vec limit) rows

/-! ### Ingestion pipeline (LearnRepositoryUseCase / LearnFilesystemUseCase
with SqliteDocsRepository)

Documents are identified by their natural key, abstracted to a `ℕ`; the
store state maps each document key to its row content and its chunk set
(chunk rows plus their optional embedding rows).  `fetch` and `embed` are
the external collaborators; `none` models a thrown exception.  The
better-sqlite3 transaction in `saveChunks` is modelled as a single atomic
update of the document's chunk list. -/

abbrev Vec := List ℚ

structure StoredChunk where
  header : String
  content : String
  wordCount : ℕ
  embedding : Option Vec
deriving DecidableEq, Repr

structure PipeState where
  docContent : ℕ → Option String
  chunksOf : ℕ → List StoredChunk

def emptyPipeState : PipeState :=
  ⟨fun _ => none, fun _ => []⟩

/-- `saveDoc`: upsert the document row (content replaced, chunks untouched). -/
def saveDoc (st : PipeState) (k : ℕ) (text : String) : PipeState :=
  { st with docContent := fun k' => if k' = k then some text else st.docContent k' }

/-- `saveChunks`: the transactional delete-and-reinsert of a document's
chunk set. -/
def saveChunksTx (st : PipeState) (k : ℕ) (cs : List StoredChunk) : PipeState :=
  { st with chunksOf := fun k' => if k' = k then cs else st.chunksOf k' }

/-- The text embedded for a chunk: `` `${chunk.header}\n${chunk.content}` ``. -/
def embedText (c : ChunkOut) : String :=
  c.header ++ "\n" ++ c.content

/-- The per-chunk embedding loop of the use cases, which runs before any
database write: it fails (returns `none`) as soon as one `embed` call
throws. -/
def embedAll (embed : String → Option Vec) : List ChunkOut → Option (List StoredChunk)
  | [] => some []
  | c :: rest =>
    match embed (embedText c) with
    | none => none
    | some v =>
      match embedAll embed rest with
      | none => none
      | some cs => some (⟨c.header, c.content, c.wordCount, some v⟩ :: cs)

/-- Processing of one file in `LearnRepositoryUseCase` /
`LearnFilesystemUseCase`: fetch, save the doc row, chunk, embed every chunk,
then atomically replace the chunk set.  The `Bool` is whether
`processedFiles` is incremented; an exception (`none` from a collaborator)
is caught at this level. -/
def processItemHex (fetch : ℕ → Option String) (embed : String → Option Vec)
    (st : PipeState) (it : ℕ) : PipeState × Bool :=
  match fetch it with
  | none => (st, false)
  | some text =>
    let st1 := saveDoc st it text
    match embedAll embed (smartChunk 1000 text) with
    | none => (st1, false)
    | some cs => (saveChunksTx st1 it cs, true)

/-- Whether an item will be counted as processed; this depends only on the
collaborators, not on the store state. -/
def itemOk (fetch : ℕ → Option String) (embed : String → Option Vec) (it : ℕ) : Bool :=
  match fetch it with
  | none => false
  | some text => (embedAll embed (smartChunk 1000 text)).isSome

/-- `Math.ceil(Math.sqrt(n))`. -/
def ceilSqrt (n : ℕ) : ℕ :=
  if Nat.sqrt n * Nat.sqrt n = n then Nat.sqrt n else Nat.sqrt n + 1

/-- `BatchProcessor.calculateOptimalBatchSize`. -/
def calculateOptimalBatchSize (totalItems minBatch maxBatch : ℕ) : ℕ :=
  if totalItems = 0 then minBatch else min (max (ceilSqrt totalItems) minBatch) maxBatch

/-- `items.slice(i, i + batchSize)` partitioning of `BatchProcessor.processBatch`,
with fuel to make the recursion structural. -/
def batchesAux {α : Type} (k : ℕ) : ℕ → List α → List (List α)
  | 0, _ => []
  | _, [] => []
  | fuel + 1, l => l.take k :: batchesAux k fuel (l.drop k)

def batches {α : Type} (k : ℕ) (l : List α) : List (List α) :=
  batchesAux k l.length l

/-- One `processFn` call together with the `processedFiles++` bookkeeping. -/
def pipelineStep (fetch : ℕ → Option String) (embed : String → Option Vec)
    (acc : PipeState × ℕ) (it : ℕ) : PipeState × ℕ :=
  let r := processItemHex fetch embed acc.1 it
  (r.1, acc.2 + if r.2 then 1 else 0)

/-- `LearnRepositoryUseCase.execute` over already-listed files: batch the
items, process each, and return (final store, processedFiles, totalFiles).
Within-batch concurrency is serialized; the observables below (counters and
per-document chunk sets for distinct keys) do not depend on the
interleaving. -/
def runPipeline (fetch : ℕ → Option String) (embed : String → Option Vec)
    (st0 : PipeState) (items : List ℕ) : PipeState × ℕ × ℕ :=
  let bs := calculateOptimalBatchSize items.length 5 20
  let r := (batches bs items).foldl
    (fun acc batch => batch.foldl (pipelineStep fetch embed) acc) (st0, 0)
  (r.1, r.2, items.length)

/-! ### Legacy monolithic chunk replacement

In the monolithic server's `learn_repository` / `learn_filesystem` handlers
the old chunks are deleted and the new ones inserted one at a time with an
`await getEmbedding(...)` between the chunk-row insert and the embedding-row
insert, with no enclosing transaction: an embedding failure aborts the item
mid-loop. -/

def clearChunks (st : PipeState) (k : ℕ) : PipeState :=
  { st with chunksOf := fun k' => if k' = k then [] else st.chunksOf k' }

def appendChunk (st : PipeState) (k : ℕ) (c : StoredChunk) : PipeState :=
  { st with chunksOf := fun k' => if k' = k then st.chunksOf k ++ [c] else st.chunksOf k' }

/-- The legacy per-chunk loop: insert the chunk row, call `getEmbedding`
(which may throw, leaving the row without an embedding), insert the
embedding row. -/
def legacyLoop (embed : String → Option Vec) (k : ℕ) (st : PipeState) :
    List ChunkOut → PipeState × Bool
  | [] => (st, true)
  | c :: rest =>
    match embed (embedText c) with
    | none => (appendChunk st k ⟨c.header, c.content, c.wordCount, none⟩, false)
    | some v => legacyLoop embed k (appendChunk st k ⟨c.header, c.content, c.wordCount, some v⟩) rest

/-- One file of the legacy `learn_repository` handler. -/
def processItemLegacy (fetch : ℕ → Option String) (embed : String → Option Vec)
    (st : PipeState) (it : ℕ) : PipeState × Bool :=
  match fetch it with
  | none => (st, false)
  | some text =>
    legacyLoop embed it (clearChunks (saveDoc st it text) it) (smartChunk 1000 text)

/-! ### AskKnowledgeUseCase variants

The query-embedding cache is modelled by its `(query_hash, embedding)`
columns; SHA-256 over `` `${model}:${query}` `` is modelled as the injective
keying function `cacheKey`.  `SearchEvent` traces record the order of
external effects so that "stored before the hybrid search runs" is a
statement about the trace. -/

abbrev QCache := List (String × Vec)

def cacheKey (model query : String) : String :=
  model ++ ":" ++ query

inductive SearchEvent where
  | cacheGet (hash : String) (hit : Bool)
  | providerEmbed (text : String)
  | cachePut (hash : String)
  | hybridSearch (embedding : Vec)
deriving DecidableEq, Repr

/-- `getCachedEmbedding`: primary-key lookup of the vector column
(bookkeeping updates omitted). -/
def lookupCache : QCache → String → Option Vec
  | [], _ => none
  | (h2, v) :: rest, h => if h2 = h then some v else lookupCache rest h

/-- `cacheEmbedding`: `INSERT ... ON CONFLICT(query_hash) DO UPDATE` that
only refreshes bookkeeping — the stored vector is not overwritten. -/
def putCache (cache : QCache) (h : String) (v : Vec) : QCache :=
  if (lookupCache cache h).isSome then cache else cache ++ [(h, v)]

/-- The cache-consulting `AskKnowledgeUseCase.execute` (and, equivalently,
the legacy `getEmbedding` followed by the search): returns the embedding
used, the resulting cache and the effect trace. -/
def executeCached (model : String) (embedFn : String → Vec) (cache : QCache)
    (query : String) : Vec × QCache × List SearchEvent :=
  let h := cacheKey model query
  match lookupCache cache h with
  | some v => (v, cache, [.cacheGet h true, .hybridSearch v])
  | none =>
    let v := embedFn query
    (v, putCache cache h v,
      [.cacheGet h false, .providerEmbed query, .cachePut h, .hybridSearch v])

/-- The plain `AskKnowledgeUseCase.execute` variant, which calls
`embeddingService.embed` directly. -/
def executePlain (embedFn : String → Vec) (cache : QCache) (query : String) :
    Vec × QCache × List SearchEvent :=
  let v := embedFn query
  (v, cache, [.providerEmbed query, .hybridSearch v])

/-- Simulation relation between the real splitter state and the
instrumented state. -/
def RelSC (st : SCState) (ast : AnnState) : Prop :=
  st.chunks = ast.groups.filterMap projGroup ∧
  st.currentHeader = ast.currentHeader ∧
  st.currentChunk = ast.currentChunk.map Prod.snd ∧
  st.currentWordCount = ast.currentWordCount

/-- All source lines recorded in an instrumented state, in order. -/
def annFlat (ast : AnnState) : List String :=
  ast.groups.flatMap groupSrcLines ++ srcLines ast.currentChunk

/-! ## Theorems -/

lemma finalizeChunk_currentHeader (st : SCState) :
    (finalizeChunk st).currentHeader = st.currentHeader := by
  unfold finalizeChunk; split <;> rfl

lemma finalizeChunk_currentChunk (st : SCState) :
    (finalizeChunk st).currentChunk = [] := by
  unfold finalizeChunk
  split
  · next h => exact h
  · rfl

lemma processBodyLine_currentHeader (m : ℕ) (st : SCState) (l : String) :
    (processBodyLine m st l).currentHeader = st.currentHeader := by
  by_cases hsoft : m < st.currentWordCount + jsWordCount l ∧ st.currentChunk ≠ []
  · by_cases hhard : 3 * m < 2 * (jsWordCount (contMarker st.currentHeader) + jsWordCount l) <;>
      simp [processBodyLine, hsoft, hhard, finalizeChunk_currentHeader]
  · by_cases hhard : 3 * m < 2 * (st.currentWordCount + jsWordCount l) <;>
      simp [processBodyLine, hsoft, hhard, finalizeChunk_currentHeader]

lemma processBodyLine_soft (m : ℕ) (st : SCState) (l : String)
    (hover : m < st.currentWordCount + jsWordCount l) (hne : st.currentChunk ≠ []) :
    processBodyLine m st l =
      (let stc : SCState := ⟨(finalizeChunk st).chunks, st.currentHeader,
        [contMarker st.currentHeader, l],
        jsWordCount (contMarker st.currentHeader) + jsWordCount l⟩
       if 3 * m < 2 * stc.currentWordCount then finalizeChunk stc else stc) := by
  by_cases hhard : 3 * m < 2 * (jsWordCount (contMarker st.currentHeader) + jsWordCount l) <;>
    simp [processBodyLine, hover, hne, hhard, finalizeChunk_currentHeader]

lemma processBodyLine_hard (m : ℕ) (st : SCState) (l : String)
    (h : (processBodyLine m st l).currentChunk ≠ []) :
    2 * (processBodyLine m st l).currentWordCount ≤ 3 * m := by
  by_cases hsoft : m < st.currentWordCount + jsWordCount l ∧ st.currentChunk ≠ []
  · by_cases hhard : 3 * m < 2 * (jsWordCount (contMarker st.currentHeader) + jsWordCount l)
    · exact absurd (by simp [processBodyLine, hsoft, hhard, finalizeChunk_currentChunk]) h
    · simp [processBodyLine, hsoft, hhard]; omega
  · by_cases hhard : 3 * m < 2 * (st.currentWordCount + jsWordCount l)
    · exact absurd (by simp [processBodyLine, hsoft, hhard, finalizeChunk_currentChunk]) h
    · simp [processBodyLine, hsoft, hhard]; omega

/-- C6: in `smartChunk`, for every non-heading line, (soft boundary) if
appending the line would push the running word count past `maxChunkSize`
and the current chunk is non-empty, the current chunk is finalized first
and a continuation chunk is started under the same header, seeded with the
synthetic marker line naming that header; and (hard boundary) whenever the
running word count would exceed 1.5 × `maxChunkSize`, the chunk is
force-finalized immediately — equivalently, an accumulator that survives
the line never exceeds 1.5 × `maxChunkSize`. -/
theorem smartChunk_soft_and_hard_boundary (maxChunkSize : ℕ) (st : SCState) (line : String)
    (hmid : isMidHeading (jsTrim line) = false) (hmain : isMainHeading (jsTrim line) = false) :
    (maxChunkSize < st.currentWordCount + jsWordCount line → st.currentChunk ≠ [] →
      processLine maxChunkSize st line =
        (let stc : SCState := ⟨(finalizeChunk st).chunks, st.currentHeader,
          [contMarker st.currentHeader, line],
          jsWordCount (contMarker st.currentHeader) + jsWordCount line⟩
         if 3 * maxChunkSize < 2 * stc.currentWordCount then finalizeChunk stc else stc)) ∧
    ((processLine maxChunkSize st line).currentChunk ≠ [] →
      2 * (processLine maxChunkSize st line).currentWordCount ≤ 3 * maxChunkSize) := by
  have hpl : processLine maxChunkSize st line = processBodyLine maxChunkSize st line := by
    simp [processLine, hmid, hmain]
  refine ⟨fun hover hne => ?_, fun hne => ?_⟩
  · rw [hpl]; exact processBodyLine_soft maxChunkSize st line hover hne
  · rw [hpl] at hne ⊢; exact processBodyLine_hard maxChunkSize st line hne

/-- Witness for C6 at a concrete overflowing state and line. -/
theorem smartChunk_soft_and_hard_boundary_witness :
    (processLine 5 ⟨[], "H", ["one two three four five six seven"], 7⟩ "eight nine ten" =
      (let stc : SCState := ⟨(finalizeChunk (⟨[], "H", ["one two three four five six seven"], 7⟩ : SCState)).chunks, "H",
        [contMarker "H", "eight nine ten"],
        jsWordCount (contMarker "H") + jsWordCount "eight nine ten"⟩
       if 3 * 5 < 2 * stc.currentWordCount then finalizeChunk stc else stc)) ∧
    2 * (processLine 5 ⟨[], "H", ["one two three four five six seven"], 7⟩ "eight nine ten").currentWordCount ≤ 3 * 5 :=
  ⟨(smartChunk_soft_and_hard_boundary 5 ⟨[], "H", ["one two three four five six seven"], 7⟩
      "eight nine ten" (by decide) (by decide)).1 (by decide) (by decide),
   (smartChunk_soft_and_hard_boundary 5 ⟨[], "H", ["one two three four five six seven"], 7⟩
      "eight nine ten" (by decide) (by decide)).2 (by decide)⟩

/-- C10 (amended): a mid-level heading marker whose text is empty or
whitespace-only trims to bare `##`/`###`/`####`, which no longer carries
the marker-plus-space prefix, so the line is not recognized as a heading at
all: it is handled by the ordinary body-line branch and the running header
is unchanged. -/
theorem emptyMidHeading_treated_as_body_line (m : ℕ) (st : SCState) (line : String)
    (h : jsTrim line = "##" ∨ jsTrim line = "###" ∨ jsTrim line = "####") :
    processLine m st line = processBodyLine m st line ∧
    (processLine m st line).currentHeader = st.currentHeader := by
  have hmid : isMidHeading (jsTrim line) = false := by
    rcases h with h | h | h <;> rw [h] <;> decide
  have hmain : isMainHeading (jsTrim line) = false := by
    rcases h with h | h | h <;> rw [h] <;> decide
  have hpl : processLine m st line = processBodyLine m st line := by
    simp [processLine, hmid, hmain]
  exact ⟨hpl, hpl ▸ processBodyLine_currentHeader m st line⟩

/-- Witness for the amended C10 at the concrete line `"##  "`. -/
theorem emptyMidHeading_treated_as_body_line_witness :
    (jsTrim "##  " = "##" ∨ jsTrim "##  " = "###" ∨ jsTrim "##  " = "####") ∧
    processLine 1000 ⟨[], "Prev", ["x"], 1⟩ "##  " = processBodyLine 1000 ⟨[], "Prev", ["x"], 1⟩ "##  " ∧
    (processLine 1000 ⟨[], "Prev", ["x"], 1⟩ "##  ").currentHeader = "Prev" :=
  ⟨Or.inl (by decide),
   emptyMidHeading_treated_as_body_line 1000 ⟨[], "Prev", ["x"], 1⟩ "##  " (Or.inl (by decide))⟩

/-- C10 counterexample: on the heading line `"## "` (empty heading text)
with a non-empty 60-character accumulator, the accumulator is NOT finalized
(`chunks` stays empty even though the pending content is above the
50-character floor), the heading line is appended to the existing chunk
rather than starting a new one, and the header is unchanged. -/
theorem emptyMidHeading_counterexample :
    (processLine 1000 ⟨[], "Prev", ["aaaaaaaaaaaaaaaaaaaaaaaaaaaaaaaaaaaaaaaaaaaaaaaaaaaaaaaaaaaa"], 1⟩ "## ").chunks = [] ∧
    (processLine 1000 ⟨[], "Prev", ["aaaaaaaaaaaaaaaaaaaaaaaaaaaaaaaaaaaaaaaaaaaaaaaaaaaaaaaaaaaa"], 1⟩ "## ").currentChunk =
      ["aaaaaaaaaaaaaaaaaaaaaaaaaaaaaaaaaaaaaaaaaaaaaaaaaaaaaaaaaaaa", "## "] ∧
    (processLine 1000 ⟨[], "Prev", ["aaaaaaaaaaaaaaaaaaaaaaaaaaaaaaaaaaaaaaaaaaaaaaaaaaaaaaaaaaaa"], 1⟩ "## ").currentHeader = "Prev" ∧
    ¬ (processLine 1000 ⟨[], "Prev", ["aaaaaaaaaaaaaaaaaaaaaaaaaaaaaaaaaaaaaaaaaaaaaaaaaaaaaaaaaaaa"], 1⟩ "## ").currentChunk.head? =
      some "## " := by
  decide

lemma srcLines_append (l1 l2 : List (Bool × String)) :
    srcLines (l1 ++ l2) = srcLines l1 ++ srcLines l2 := by
  simp [srcLines]

lemma annFinalize_currentChunk (ast : AnnState) :
    (annFinalize ast).currentChunk = [] := by
  unfold annFinalize
  split
  · next h => exact h
  · rfl

lemma annFlat_finalize (ast : AnnState) : annFlat (annFinalize ast) = annFlat ast := by
  unfold annFinalize annFlat
  split
  · rfl
  · simp [groupSrcLines, srcLines]

lemma annFlat_line (m : ℕ) (ast : AnnState) (l : String) :
    annFlat (annLine m ast l) = annFlat ast ++ [l] := by
  unfold annFlat
  simp only [annLine, annBodyLine, annFinalize]
  split_ifs <;> simp_all [srcLines, groupSrcLines]

lemma RelSC_initial : RelSC initialSCState initialAnnState := by
  simp [RelSC, initialSCState, initialAnnState]

lemma RelSC_finalize {st : SCState} {ast : AnnState} (h : RelSC st ast) :
    RelSC (finalizeChunk st) (annFinalize ast) := by
  obtain ⟨st1, st2, st3, st4⟩ := st
  obtain ⟨a1, a2, a3, a4⟩ := ast
  obtain ⟨h1, h2, h3, h4⟩ := h
  simp only at h1 h2 h3 h4
  subst h1 h2 h3 h4
  simp only [RelSC, finalizeChunk, annFinalize, projGroup]
  split_ifs <;> simp_all [List.map_eq_nil_iff, projGroup, List.filterMap_append]

set_option maxHeartbeats 1600000 in
lemma RelSC_line (m : ℕ) (l : String) {st : SCState} {ast : AnnState} (h : RelSC st ast) :
    RelSC (processLine m st l) (annLine m ast l) := by
  obtain ⟨st1, st2, st3, st4⟩ := st
  obtain ⟨a1, a2, a3, a4⟩ := ast
  obtain ⟨h1, h2, h3, h4⟩ := h
  simp only at h1 h2 h3 h4
  subst h1 h2 h3 h4
  simp only [RelSC, processLine, processBodyLine, annLine, annBodyLine, finalizeChunk,
    annFinalize, projGroup]
  split_ifs <;> simp_all [List.map_eq_nil_iff, projGroup, List.filterMap_append]

lemma RelSC_foldl (m : ℕ) : ∀ (lines : List String) {st : SCState} {ast : AnnState},
    RelSC st ast → RelSC (lines.foldl (processLine m) st) (lines.foldl (annLine m) ast)
  | [], _, _, h => h
  | l :: rest, _, _, h => RelSC_foldl m rest (RelSC_line m l h)

lemma annFlat_foldl (m : ℕ) : ∀ (lines : List String) (ast : AnnState),
    annFlat (lines.foldl (annLine m) ast) = annFlat ast ++ lines
  | [], _ => by simp
  | l :: rest, ast => by
    rw [List.foldl_cons, annFlat_foldl m rest, annFlat_line]
    simp

/-- C7 (amended): for every non-empty text, the instrumented run of
`smartChunk` partitions the source lines: every source line is assigned, in
order, to exactly one finalized group, and the produced chunks are exactly
the groups whose trimmed joined content (source lines plus possibly a
leading synthetic continuation marker) exceeds the 50-character floor, each
chunk's content being that trimmed join (so boundary whitespace of a
group's lines is not reproduced verbatim). -/
theorem smartChunk_line_partition (m : ℕ) (text : String) (h : jsTrim text ≠ "") :
    (annRun m (splitLines text)).groups.flatMap groupSrcLines = splitLines text ∧
    smartChunk m text = (annRun m (splitLines text)).groups.filterMap projGroup := by
  constructor
  · have h1 : annFlat (annRun m (splitLines text)) = splitLines text := by
      unfold annRun
      rw [annFlat_finalize, annFlat_foldl]
      simp [annFlat, initialAnnState, srcLines]
    have h2 : (annRun m (splitLines text)).currentChunk = [] := annFinalize_currentChunk _
    unfold annFlat at h1
    rw [h2] at h1
    simpa [srcLines] using h1
  · unfold smartChunk
    rw [if_neg h]
    exact (RelSC_finalize (RelSC_foldl m (splitLines text) RelSC_initial)).1

/-- Witness for the amended C7 at a concrete three-line text. -/
theorem smartChunk_line_partition_witness :
    jsTrim "hello there\n# T\nworld and more words making this line long enough to survive" ≠ "" ∧
    ((annRun 1000 (splitLines "hello there\n# T\nworld and more words making this line long enough to survive")).groups.flatMap groupSrcLines =
      splitLines "hello there\n# T\nworld and more words making this line long enough to survive" ∧
     smartChunk 1000 "hello there\n# T\nworld and more words making this line long enough to survive" =
      (annRun 1000 (splitLines "hello there\n# T\nworld and more words making this line long enough to survive")).groups.filterMap projGroup) :=
  ⟨by decide, smartChunk_line_partition 1000 _ (by decide)⟩

/-- C7 counterexample: a single-line text whose only line sits in the
single kept (not discarded) chunk, yet concatenating the chunk contents
does not reproduce the line — `finalizeChunk` trims the leading
whitespace. -/
theorem smartChunk_concat_not_lossless :
    smartChunk 1000 "  aaaaaaaaaaaaaaaaaaaaaaaaaaaaaaaaaaaaaaaaaaaaaaaaaaaaaaaaaaaa" =
      [⟨"Introduction", "aaaaaaaaaaaaaaaaaaaaaaaaaaaaaaaaaaaaaaaaaaaaaaaaaaaaaaaaaaaa", 2⟩] ∧
    joinLines ((smartChunk 1000 "  aaaaaaaaaaaaaaaaaaaaaaaaaaaaaaaaaaaaaaaaaaaaaaaaaaaaaaaaaaaa").map
        ChunkOut.content) ≠
      "  aaaaaaaaaaaaaaaaaaaaaaaaaaaaaaaaaaaaaaaaaaaaaaaaaaaaaaaaaaaa" := by
  decide

lemma cleanup_eq_filter (cache : List CacheEntry) :
    cleanup cache = cache.filter (fun e =>
      decide (e.queryHash ∉
        ((List.insertionSort cacheLe cache).take (evictCount cache.length)).map
          CacheEntry.queryHash)) := rfl

lemma cleanup_noop (cache : List CacheEntry) (h : cache.length ≤ 1000) :
    cleanup cache = cache := by
  have hm : evictCount cache.length = 0 := by
    unfold evictCount
    rw [if_neg (by omega)]
  rw [cleanup_eq_filter, hm]
  simp

-- membership in the removal prefix is membership by hash, given nodup hashes
lemma mem_take_iff_hash (cache : List CacheEntry)
    (hhash : (cache.map CacheEntry.queryHash).Nodup) (e : CacheEntry) (he : e ∈ cache)
    (m : ℕ) :
    (e.queryHash ∈ ((List.insertionSort cacheLe cache).take m).map CacheEntry.queryHash ↔
      e ∈ (List.insertionSort cacheLe cache).take m) := by
  constructor
  · intro hmem
    obtain ⟨e', he', heq⟩ := List.mem_map.mp hmem
    have he'c : e' ∈ cache :=
      (List.perm_insertionSort cacheLe cache).mem_iff.mp
        (List.mem_of_mem_take he')
    have : e' = e := List.inj_on_of_nodup_map hhash he'c he heq
    exact this ▸ he'
  · intro hmem
    exact List.mem_map_of_mem CacheEntry.queryHash hmem

lemma mem_drop_iff_not_mem_take {s : List CacheEntry} (hnd : s.Nodup) {e : CacheEntry}
    (he : e ∈ s) (m : ℕ) : e ∈ s.drop m ↔ e ∉ s.take m := by
  have hsplit : s.take m ++ s.drop m = s := List.take_append_drop m s
  have hnd2 : (s.take m ++ s.drop m).Nodup := by rw [hsplit]; exact hnd
  have hdisj := List.disjoint_of_nodup_append hnd2
  constructor
  · intro hd ht
    exact hdisj ht hd
  · intro ht
    have hmem : e ∈ s.take m ++ s.drop m := by rw [hsplit]; exact he
    rcases List.mem_append.mp hmem with h | h
    · exact absurd h ht
    · exact h

lemma cleanup_mem_iff (cache : List CacheEntry)
    (hhash : (cache.map CacheEntry.queryHash).Nodup)
    (hla : (cache.map CacheEntry.lastAccessed).Nodup)
    (e : CacheEntry) (he : e ∈ cache) :
    (e ∈ cleanup cache ↔
      cache.countP (fun e2 => decide (e.lastAccessed < e2.lastAccessed)) < 1000) := by
  set s := List.insertionSort cacheLe cache with hs
  set m := evictCount cache.length with hm
  have hperm : List.Perm s cache := List.perm_insertionSort cacheLe cache
  have hsort : List.Sorted cacheLe s := List.sorted_insertionSort cacheLe cache
  have hnds : s.Nodup := (hperm.nodup_iff).mpr (hhash.of_map)
  have hes : e ∈ s := (hperm.mem_iff).mpr he
  obtain ⟨u, v, huv⟩ := List.append_of_mem hes
  -- countP over the sorted split equals v.length
  have hpw : List.Pairwise cacheLe (u ++ e :: v) := huv ▸ hsort
  rw [List.pairwise_append] at hpw
  have hpwev := hpw.2.1
  rw [List.pairwise_cons] at hpwev
  have hlas : ((u ++ e :: v).map CacheEntry.lastAccessed).Nodup := by
    rw [← huv]
    exact ((hperm.map CacheEntry.lastAccessed).nodup_iff).mpr hla
  have hnev : ((e :: v).map CacheEntry.lastAccessed).Nodup := by
    refine List.Nodup.sublist ?_ hlas
    exact List.Sublist.map CacheEntry.lastAccessed (List.sublist_append_right u (e :: v))
  have henv : e.lastAccessed ∉ v.map CacheEntry.lastAccessed := by
    have := List.nodup_cons.mp hnev
    exact this.1
  have hv : ∀ b ∈ v, e.lastAccessed < b.lastAccessed := by
    intro b hb
    have hle : cacheLe e b := hpwev.1 b hb
    have hne : e.lastAccessed ≠ b.lastAccessed := by
      intro hcontra
      exact henv (hcontra ▸ List.mem_map_of_mem CacheEntry.lastAccessed hb)
    unfold cacheLe at hle
    omega
  have hu : ∀ a ∈ u, ¬ e.lastAccessed < a.lastAccessed := by
    intro a ha
    have : cacheLe a e := hpw.2.2 a ha e (List.mem_cons_self e v)
    unfold cacheLe at this
    omega
  have hcount : cache.countP (fun e2 => decide (e.lastAccessed < e2.lastAccessed)) = v.length := by
    rw [← hperm.countP_eq, huv, List.countP_append, List.countP_cons]
    have h1 : u.countP (fun e2 => decide (e.lastAccessed < e2.lastAccessed)) = 0 := by
      rw [List.countP_eq_zero]
      intro a ha
      simpa using hu a ha
    have h2 : v.countP (fun e2 => decide (e.lastAccessed < e2.lastAccessed)) = v.length := by
      rw [List.countP_eq_length]
      intro a ha
      simpa using hv a ha
    simp [h1, h2]
  -- membership in the drop part
  have hdropiff : e ∈ s.drop m ↔ m ≤ u.length := by
    rw [huv, List.drop_append_eq_append_drop]
    constructor
    · intro hmem
      by_contra hgt
      push_neg at hgt
      have hd1 : u.drop m = [] := List.drop_eq_nil_of_le (by omega)
      rcases List.mem_append.mp hmem with h | h
      · rw [hd1] at h; exact absurd h (List.not_mem_nil e)
      · have hk : m - u.length = (m - u.length - 1) + 1 := by omega
        rw [hk, List.drop_succ_cons] at h
        have hev : e ∈ v := List.mem_of_mem_drop h
        have hnds2 : (u ++ e :: v).Nodup := by rw [← huv]; exact hnds
        exact (List.nodup_cons.mp hnds2.of_append_right).1 hev
    · intro hle2
      have : m - u.length = 0 := by omega
      rw [this, List.drop_zero]
      exact List.mem_append.mpr (Or.inr (List.mem_cons_self e v))
  -- membership in cleanup
  have hmemTake := mem_take_iff_hash cache hhash e he m
  have hcleaniff : e ∈ cleanup cache ↔ e ∈ s.drop m := by
    rw [cleanup_eq_filter, List.mem_filter]
    rw [mem_drop_iff_not_mem_take hnds hes m]
    constructor
    · intro ⟨_, hp⟩
      intro htake
      have := of_decide_eq_true hp
      exact this (hmemTake.mpr htake)
    · intro hnt
      refine ⟨he, decide_eq_true ?_⟩
      intro hhmem
      exact hnt (hmemTake.mp hhmem)
  -- final arithmetic
  have hlen : s.length = cache.length := hperm.length_eq
  have hlen2 : s.length = u.length + 1 + v.length := by
    rw [huv]
    simp [List.length_append]
    omega
  rw [hcleaniff, hdropiff, hcount, hm]
  unfold evictCount
  split_ifs <;> omega

lemma countP_lt_range (n i : ℕ) :
    (List.range n).countP (fun j => decide (i < j)) = n - (i + 1) := by
  induction n with
  | zero => simp
  | succ n ih =>
    rw [List.range_succ, List.countP_append, ih]
    by_cases h : i < n <;> simp [List.countP_cons, h] <;> omega

lemma cache1500_hash_nodup : (cache1500.map CacheEntry.queryHash).Nodup := by
  have h : cache1500.map CacheEntry.queryHash = List.range 1500 := by
    simp [cache1500, List.map_map, Function.comp_def]
  rw [h]
  exact List.nodup_range _

lemma cache1500_la_nodup : (cache1500.map CacheEntry.lastAccessed).Nodup := by
  have h : cache1500.map CacheEntry.lastAccessed = List.range 1500 := by
    simp [cache1500, List.map_map, Function.comp_def]
  rw [h]
  exact List.nodup_range _

/-- C3 (amended): the guarded `SqliteDocsRepository.cleanup()` deletes
exactly the rows that are not among the 1000 most-recently-accessed
entries (an entry survives iff fewer than 1000 entries are strictly more
recent), choosing the removal set by ascending `last_accessed`; it is a
no-op when the cache holds at most 1000 entries; and on the 1500-entry
table `cache1500` exactly the 1000 most-recently accessed rows (those with
`last_accessed ≥ 500`) remain. -/
theorem cleanup_keeps_exactly_1000_most_recent (cache : List CacheEntry)
    (hhash : (cache.map CacheEntry.queryHash).Nodup)
    (hla : (cache.map CacheEntry.lastAccessed).Nodup) :
    (cache.length ≤ 1000 → cleanup cache = cache) ∧
    (∀ e ∈ cache, (e ∈ cleanup cache ↔
      cache.countP (fun e2 => decide (e.lastAccessed < e2.lastAccessed)) < 1000)) ∧
    cleanup cache1500 = cache1500.filter (fun e => decide (500 ≤ e.lastAccessed)) := by
  refine ⟨cleanup_noop cache, fun e he => cleanup_mem_iff cache hhash hla e he, ?_⟩
  rw [cleanup_eq_filter]
  apply List.filter_congr
  intro e he
  obtain ⟨i, hi, rfl⟩ : ∃ i, i < 1500 ∧ e = ⟨i, i⟩ := by
    obtain ⟨i, hir, heq⟩ := List.mem_map.mp he
    exact ⟨i, List.mem_range.mp hir, heq.symm⟩
  have hcount : cache1500.countP
      (fun e2 => decide ((⟨i, i⟩ : CacheEntry).lastAccessed < e2.lastAccessed)) =
      1500 - (i + 1) := by
    unfold cache1500
    rw [List.countP_map]
    exact countP_lt_range 1500 i
  have hmem := cleanup_mem_iff cache1500 cache1500_hash_nodup cache1500_la_nodup ⟨i, i⟩ he
  rw [hcount] at hmem
  have hmemfilter : (⟨i, i⟩ : CacheEntry) ∈ cleanup cache1500 ↔
      (decide ((⟨i, i⟩ : CacheEntry).queryHash ∉
        ((List.insertionSort cacheLe cache1500).take (evictCount cache1500.length)).map
          CacheEntry.queryHash) = true) := by
    rw [cleanup_eq_filter, List.mem_filter]
    exact ⟨fun h => h.2, fun h => ⟨he, h⟩⟩
  rw [hmemfilter] at hmem
  have hiff : (500 ≤ i) ↔ (1500 - (i + 1) < 1000) := by omega
  rw [decide_eq_true_eq] at hmem
  by_cases hc : 500 ≤ i
  · rw [decide_eq_true (show 500 ≤ (⟨i, i⟩ : CacheEntry).lastAccessed from hc)]
    exact decide_eq_true (hmem.mpr (hiff.mp hc))
  · rw [decide_eq_false (show ¬ 500 ≤ (⟨i, i⟩ : CacheEntry).lastAccessed from hc)]
    have hnot : ¬ (1500 - (i + 1) < 1000) := fun hx => hc (hiff.mpr hx)
    exact decide_eq_false (fun hx => hnot (hmem.mp hx))

/-- Witness for C3 at a concrete two-entry cache. -/
theorem cleanup_keeps_exactly_1000_most_recent_witness :
    (cleanup [(⟨0, 5⟩ : CacheEntry), ⟨1, 9⟩] = [⟨0, 5⟩, ⟨1, 9⟩]) ∧
    ((⟨1, 9⟩ : CacheEntry) ∈ cleanup [(⟨0, 5⟩ : CacheEntry), ⟨1, 9⟩] ↔
      ([(⟨0, 5⟩ : CacheEntry), ⟨1, 9⟩].countP
        (fun e2 => decide ((⟨1, 9⟩ : CacheEntry).lastAccessed < e2.lastAccessed)) < 1000)) :=
  ⟨(cleanup_keeps_exactly_1000_most_recent [⟨0, 5⟩, ⟨1, 9⟩] (by decide) (by decide)).1
      (by decide),
   (cleanup_keeps_exactly_1000_most_recent [⟨0, 5⟩, ⟨1, 9⟩] (by decide) (by decide)).2.1
      ⟨1, 9⟩ (by decide)⟩

/-- C3 counterexample: the legacy `cleanupCache` lacks the CASE guard, so
on a cache holding at most 1000 entries (here: two) the LIMIT subquery is
negative, SQLite applies no limit, and the DELETE removes every row —
instead of the claimed no-op. -/
theorem legacy_cleanup_wipes_small_cache :
    ([(⟨0, 5⟩ : CacheEntry), ⟨1, 9⟩] : List CacheEntry).length ≤ 1000 ∧
    legacyCleanupCache [⟨0, 5⟩, ⟨1, 9⟩] = [] ∧
    legacyCleanupCache [⟨0, 5⟩, ⟨1, 9⟩] ≠ [⟨0, 5⟩, ⟨1, 9⟩] := by
  decide

lemma batchesAux_flatten {α : Type} (k : ℕ) (hk : 1 ≤ k) :
    ∀ (fuel : ℕ) (l : List α), l.length ≤ fuel → (batchesAux k fuel l).flatten = l := by
  intro fuel
  induction fuel with
  | zero =>
    intro l hl
    have : l = [] := List.eq_nil_of_length_eq_zero (by omega)
    subst this
    rfl
  | succ fuel ih =>
    intro l hl
    cases l with
    | nil => rfl
    | cons a rest =>
      show ((a :: rest).take k :: batchesAux k fuel ((a :: rest).drop k)).flatten = a :: rest
      rw [List.flatten_cons, ih ((a :: rest).drop k) (by simp only [List.length_drop, List.length_cons] at hl ⊢; omega)]
      exact List.take_append_drop k (a :: rest)

lemma batchSize_pos (n : ℕ) : 1 ≤ calculateOptimalBatchSize n 5 20 := by
  unfold calculateOptimalBatchSize
  split_ifs
  · omega
  · have h1 : 5 ≤ max (ceilSqrt n) 5 := le_max_right _ _
    omega

lemma processItemHex_snd (f : ℕ → Option String) (e : String → Option Vec)
    (st : PipeState) (it : ℕ) : (processItemHex f e st it).2 = itemOk f e it := by
  unfold processItemHex itemOk
  cases hf : f it
  · rfl
  · next text =>
    cases he : embedAll e (smartChunk 1000 text) <;> simp [he]

lemma foldl_pipelineStep_count (f : ℕ → Option String) (e : String → Option Vec) :
    ∀ (items : List ℕ) (st : PipeState) (c : ℕ),
      (items.foldl (pipelineStep f e) (st, c)).2 = c + items.countP (itemOk f e)
  | [], _, _ => by simp
  | it :: rest, st, c => by
    rw [List.foldl_cons]
    show ((rest.foldl (pipelineStep f e) ((processItemHex f e st it).1,
      c + if (processItemHex f e st it).2 then 1 else 0))).2 = _
    rw [foldl_pipelineStep_count f e rest _ _, processItemHex_snd, List.countP_cons]
    by_cases h : itemOk f e it <;> simp [h] <;> omega

lemma processItemHex_chunksOf_other (f : ℕ → Option String) (e : String → Option Vec)
    (st : PipeState) (it k : ℕ) (h : k ≠ it) :
    ((processItemHex f e st it).1).chunksOf k = st.chunksOf k := by
  unfold processItemHex
  cases hf : f it
  · rfl
  · next text =>
    cases he : embedAll e (smartChunk 1000 text) <;> simp [he, h, saveDoc, saveChunksTx]

lemma processItemHex_fetch_fail (f : ℕ → Option String) (e : String → Option Vec)
    (st : PipeState) (it : ℕ) (h : f it = none) : (processItemHex f e st it).1 = st := by
  unfold processItemHex
  rw [h]

lemma foldl_chunksOf_not_mem (f : ℕ → Option String) (e : String → Option Vec) :
    ∀ (items : List ℕ) (acc : PipeState × ℕ) (k : ℕ), k ∉ items →
      ((items.foldl (pipelineStep f e) acc).1).chunksOf k = (acc.1).chunksOf k
  | [], _, _, _ => rfl
  | it :: rest, acc, k, hk => by
    rw [List.foldl_cons]
    rw [foldl_chunksOf_not_mem f e rest _ k (fun hmem => hk (List.mem_cons_of_mem it hmem))]
    exact processItemHex_chunksOf_other f e acc.1 it k (fun heq => hk (heq ▸ List.mem_cons_self it rest))

lemma foldl_chunksOf_failed (f : ℕ → Option String) (e : String → Option Vec) :
    ∀ (items : List ℕ) (acc : PipeState × ℕ) (k : ℕ), items.Nodup → k ∈ items →
      f k = none →
      ((items.foldl (pipelineStep f e) acc).1).chunksOf k = (acc.1).chunksOf k
  | [], _, _, _, hmem, _ => absurd hmem (List.not_mem_nil _)
  | it :: rest, acc, k, hnd, hmem, hf => by
    rw [List.foldl_cons]
    rcases List.mem_cons.mp hmem with heq | hmem2
    · subst heq
      have hknotin : k ∉ rest := (List.nodup_cons.mp hnd).1
      rw [foldl_chunksOf_not_mem f e rest _ k hknotin]
      show ((processItemHex f e acc.1 k).1).chunksOf k = _
      rw [processItemHex_fetch_fail f e acc.1 k hf]
    · rw [foldl_chunksOf_failed f e rest _ k (List.nodup_cons.mp hnd).2 hmem2 hf]
      exact processItemHex_chunksOf_other f e acc.1 it k
        (fun heq => (List.nodup_cons.mp hnd).1 (heq ▸ hmem2))

/-- C5: for every ingestion run, a per-item exception (modelled by a `none`
from the fetch or embed collaborator) is caught at the item level and does
not abort its batch or later batches: `totalCount` is the number of items,
`processedCount` counts exactly the items that succeeded, and a document
whose fetch failed keeps its prior (for a fresh document: empty) chunk
set. -/
theorem pipeline_counts_and_failed_doc (fetch : ℕ → Option String)
    (embed : String → Option Vec) (st0 : PipeState) (items : List ℕ)
    (hnd : items.Nodup) :
    (runPipeline fetch embed st0 items).2.2 = items.length ∧
    (runPipeline fetch embed st0 items).2.1 = items.countP (itemOk fetch embed) ∧
    (∀ it ∈ items, fetch it = none →
      ((runPipeline fetch embed st0 items).1).chunksOf it = st0.chunksOf it) := by
  have hbs := batchSize_pos items.length
  have hflat := batchesAux_flatten (calculateOptimalBatchSize items.length 5 20) hbs
    items.length items (le_refl _)
  have hfold : (batches (calculateOptimalBatchSize items.length 5 20) items).foldl
      (fun acc batch => batch.foldl (pipelineStep fetch embed) acc) (st0, 0) =
      items.foldl (pipelineStep fetch embed) (st0, 0) := by
    rw [← List.foldl_flatten]
    unfold batches
    rw [hflat]
  refine ⟨rfl, ?_, ?_⟩
  · show ((batches _ items).foldl _ (st0, 0)).2 = _
    rw [hfold]
    simpa using foldl_pipelineStep_count fetch embed items st0 0
  · intro it hit hf
    show (((batches _ items).foldl _ (st0, 0)).1).chunksOf it = _
    rw [hfold]
    exact foldl_chunksOf_failed fetch embed items (st0, 0) it hnd hit hf

/-- Witness for C5: 5 documents, exactly one of which raises during fetch,
give processedCount = 4, totalCount = 5, and zero persisted chunks for the
failed document. -/
theorem pipeline_counts_and_failed_doc_witness :
    (runPipeline (fun it => if it = 2 then none else some "") (fun _ => some [])
        emptyPipeState [0, 1, 2, 3, 4]).2.2 = 5 ∧
    (runPipeline (fun it => if it = 2 then none else some "") (fun _ => some [])
        emptyPipeState [0, 1, 2, 3, 4]).2.1 = 4 ∧
    ((runPipeline (fun it => if it = 2 then none else some "") (fun _ => some [])
        emptyPipeState [0, 1, 2, 3, 4]).1).chunksOf 2 = [] :=
  ⟨(pipeline_counts_and_failed_doc (fun it => if it = 2 then none else some "")
      (fun _ => some []) emptyPipeState [0, 1, 2, 3, 4] (by decide)).1,
   ((pipeline_counts_and_failed_doc (fun it => if it = 2 then none else some "")
      (fun _ => some []) emptyPipeState [0, 1, 2, 3, 4] (by decide)).2.1).trans (by decide),
   (pipeline_counts_and_failed_doc (fun it => if it = 2 then none else some "")
      (fun _ => some []) emptyPipeState [0, 1, 2, 3, 4] (by decide)).2.2 2 (by decide) (by decide)⟩

lemma embedAll_embeddings (e : String → Option Vec) :
    ∀ (l : List ChunkOut) (cs : List StoredChunk), embedAll e l = some cs →
      ∀ c ∈ cs, c.embedding.isSome = true
  | [], cs, h => by
    simp only [embedAll, Option.some.injEq] at h
    subst h
    intro c hc
    exact absurd hc (List.not_mem_nil c)
  | ch :: rest, cs, h => by
    unfold embedAll at h
    cases hv : e (embedText ch) <;> rw [hv] at h
    · exact absurd h (by simp)
    · next v =>
      cases hr : embedAll e rest <;> rw [hr] at h
      · exact absurd h (by simp)
      · next cs2 =>
        simp only [Option.some.injEq] at h
        subst h
        intro c hc
        rcases List.mem_cons.mp hc with rfl | hc2
        · rfl
        · exact embedAll_embeddings e rest cs2 hr c hc2

/-- C2 (amended): on the hexagonal path — the use cases compute every
chunk embedding before calling the transactional
`SqliteDocsRepository.saveChunks` — chunk replacement is atomic: each
document's chunk set is either left untouched (in particular on any fetch,
chunking or embedding failure) or fully replaced by the complete new set,
every chunk of which carries its embedding. -/
theorem saveChunks_replacement_atomic (fetch : ℕ → Option String)
    (embed : String → Option Vec) (st : PipeState) (it k : ℕ) :
    ((processItemHex fetch embed st it).1).chunksOf k = st.chunksOf k ∨
    (k = it ∧ ∃ text cs, fetch it = some text ∧
      embedAll embed (smartChunk 1000 text) = some cs ∧
      ((processItemHex fetch embed st it).1).chunksOf k = cs ∧
      ∀ c ∈ cs, c.embedding.isSome = true) := by
  by_cases hk : k = it
  · subst hk
    unfold processItemHex
    cases hf : fetch k
    · exact Or.inl rfl
    · next text =>
      cases he : embedAll embed (smartChunk 1000 text)
      · exact Or.inl (by simp [he, saveDoc])
      · next cs =>
        right
        exact ⟨rfl, text, cs, rfl, he, by simp [he, saveChunksTx], embedAll_embeddings embed _ cs he⟩
  · exact Or.inl (processItemHex_chunksOf_other fetch embed st it k hk)

/-- C2 counterexample: on the legacy monolithic path, which deletes the
old chunks and then inserts chunk rows and embeddings one at a time without
a transaction, an embedding failure on the second chunk leaves the document
with a partial replacement — the old set is gone, both new chunk rows are
present but the second has no embedding — so the replacement is neither
full nor empty. -/
theorem legacy_chunk_replacement_not_atomic :
    ((processItemLegacy (fun _ => some "aaaaaaaaaaaaaaaaaaaaaaaaaaaaaaaaaaaaaaaaaaaaaaaaaaaaaaaaaaaa\n# B\nbbbbbbbbbbbbbbbbbbbbbbbbbbbbbbbbbbbbbbbbbbbbbbbbbbbbbbbbbbbb")
        (fun s => if s = "Introduction\naaaaaaaaaaaaaaaaaaaaaaaaaaaaaaaaaaaaaaaaaaaaaaaaaaaaaaaaaaaa" then some [1] else none)
        ⟨fun _ => none, fun k => if k = 1 then [⟨"old", "old content kept from the previous ingestion", 7, some [0]⟩] else []⟩
        1).1).chunksOf 1 =
      [⟨"Introduction", "aaaaaaaaaaaaaaaaaaaaaaaaaaaaaaaaaaaaaaaaaaaaaaaaaaaaaaaaaaaa", 1, some [1]⟩,
       ⟨"B", "# B\nbbbbbbbbbbbbbbbbbbbbbbbbbbbbbbbbbbbbbbbbbbbbbbbbbbbbbbbbbbbb", 3, none⟩] ∧
    ((processItemLegacy (fun _ => some "aaaaaaaaaaaaaaaaaaaaaaaaaaaaaaaaaaaaaaaaaaaaaaaaaaaaaaaaaaaa\n# B\nbbbbbbbbbbbbbbbbbbbbbbbbbbbbbbbbbbbbbbbbbbbbbbbbbbbbbbbbbbbb")
        (fun s => if s = "Introduction\naaaaaaaaaaaaaaaaaaaaaaaaaaaaaaaaaaaaaaaaaaaaaaaaaaaaaaaaaaaa" then some [1] else none)
        ⟨fun _ => none, fun k => if k = 1 then [⟨"old", "old content kept from the previous ingestion", 7, some [0]⟩] else []⟩
        1).1).chunksOf 1 ≠
      [⟨"old", "old content kept from the previous ingestion", 7, some [0]⟩] ∧
    ¬ (∀ c ∈ ((processItemLegacy (fun _ => some "aaaaaaaaaaaaaaaaaaaaaaaaaaaaaaaaaaaaaaaaaaaaaaaaaaaaaaaaaaaa\n# B\nbbbbbbbbbbbbbbbbbbbbbbbbbbbbbbbbbbbbbbbbbbbbbbbbbbbbbbbbbbbb")
        (fun s => if s = "Introduction\naaaaaaaaaaaaaaaaaaaaaaaaaaaaaaaaaaaaaaaaaaaaaaaaaaaaaaaaaaaa" then some [1] else none)
        ⟨fun _ => none, fun k => if k = 1 then [⟨"old", "old content kept from the previous ingestion", 7, some [0]⟩] else []⟩
        1).1).chunksOf 1, c.embedding.isSome = true) := by
  decide

lemma lookupCache_put_self (cache : QCache) (h : String) (v : Vec)
    (hmiss : lookupCache cache h = none) :
    lookupCache (putCache cache h v) h = some v := by
  unfold putCache
  rw [hmiss]
  simp only [Option.isSome_none, Bool.false_eq_true, if_false]
  induction cache with
  | nil => simp [lookupCache]
  | cons p rest ih =>
    obtain ⟨h2, v2⟩ := p
    by_cases heq : h2 = h
    · rw [lookupCache] at hmiss
      rw [if_pos heq] at hmiss
      exact absurd hmiss (by simp)
    · rw [lookupCache] at hmiss
      rw [if_neg heq] at hmiss
      show lookupCache ((h2, v2) :: (rest ++ [(h, v)])) h = some v
      rw [lookupCache, if_neg heq]
      exact ih hmiss

/-- C4 (amended): the cache-consulting `AskKnowledgeUseCase` variant (and
the legacy `getEmbedding`) computes the key `hash(model, query)` and
consults the cache first: on a hit the cached vector is reused and the
provider is never called; on a miss the provider is called once and the
vector is stored in the cache before the hybrid search runs (the trace
order is get, embed, put, search, and the new cache resolves the key). -/
theorem cached_ask_embedding_protocol (model : String) (embedFn : String → Vec)
    (cache : QCache) (query : String) :
    (∀ v, lookupCache cache (cacheKey model query) = some v →
      executeCached model embedFn cache query =
        (v, cache, [.cacheGet (cacheKey model query) true, .hybridSearch v]) ∧
      (∀ t, SearchEvent.providerEmbed t ∉ (executeCached model embedFn cache query).2.2)) ∧
    (lookupCache cache (cacheKey model query) = none →
      executeCached model embedFn cache query =
        (embedFn query, putCache cache (cacheKey model query) (embedFn query),
          [.cacheGet (cacheKey model query) false, .providerEmbed query,
           .cachePut (cacheKey model query), .hybridSearch (embedFn query)]) ∧
      lookupCache (putCache cache (cacheKey model query) (embedFn query))
        (cacheKey model query) = some (embedFn query)) := by
  constructor
  · intro v hv
    refine ⟨by simp [executeCached, hv], ?_⟩
    intro t
    simp [executeCached, hv]
  · intro hmiss
    exact ⟨by simp [executeCached, hmiss], lookupCache_put_self cache _ _ hmiss⟩

/-- Witness for the amended C4: a concrete hit and a concrete miss. -/
theorem cached_ask_embedding_protocol_witness :
    executeCached "m" (fun _ => [9]) [(cacheKey "m" "q", [3])] "q" =
      ([3], [(cacheKey "m" "q", [3])],
        [.cacheGet (cacheKey "m" "q") true, .hybridSearch [3]]) ∧
    executeCached "m" (fun _ => [9]) [] "q" =
      ([9], putCache [] (cacheKey "m" "q") [9],
        [.cacheGet (cacheKey "m" "q") false, .providerEmbed "q",
         .cachePut (cacheKey "m" "q"), .hybridSearch [9]]) :=
  ⟨((cached_ask_embedding_protocol "m" (fun _ => [9]) [(cacheKey "m" "q", [3])] "q").1
      [3] (by decide)).1,
   ((cached_ask_embedding_protocol "m" (fun _ => [9]) [] "q").2 (by decide)).1⟩

/-- C4 counterexample: the plain `AskKnowledgeUseCase` variant in
`src/@application` calls the provider even though the cache holds the key,
uses the provider's vector instead of the cached one, and never consults
or updates the cache — so the claim does not hold for every search. -/
theorem plain_ask_bypasses_cache :
    lookupCache [(cacheKey "m" "q", [5])] (cacheKey "m" "q") = some [5] ∧
    executePlain (fun _ => [7]) [(cacheKey "m" "q", [5])] "q" =
      ([7], [(cacheKey "m" "q", [5])], [.providerEmbed "q", .hybridSearch [7]]) ∧
    (executePlain (fun _ => [7]) [(cacheKey "m" "q", [5])] "q").1 ≠ [5] ∧
    SearchEvent.providerEmbed "q" ∈
      (executePlain (fun _ => [7]) [(cacheKey "m" "q", [5])] "q").2.2 := by
  decide

/-- C9: in `searchHybrid`'s hydration step, every ranked candidate id with
no matching row is silently omitted (no error, no substitute: every
returned row is a genuine row of the hydration result), the surviving rows
keep the fused order exactly (the returned ids are the ranked ids filtered
to those with a matching row), and the result can be strictly shorter than
`min(limit, number of fused candidates)`, as the final concrete instance
with two ranked ids and one row shows. -/
theorem hydrate_omits_unmatched_preserving_order (ids : List ℕ) (rows : List ResultRow) :
    ((hydrate ids rows).map ResultRow.id =
      ids.filter (fun i => rows.any (fun r => r.id == i))) ∧
    (∀ r ∈ hydrate ids rows, r ∈ rows) ∧
    (hydrate ids rows).length ≤ ids.length ∧
    hydrate [1, 2] [⟨2, "h", "c", "p"⟩] = [⟨2, "h", "c", "p"⟩] := by
  refine ⟨?_, ?_, ?_, by decide⟩
  · induction ids with
    | nil => rfl
    | cons i rest ih =>
      show ((rows.find? (fun r => r.id == i) :: rest.map _).reduceOption).map _ = _
      cases hf : rows.find? (fun r => r.id == i)
      · have hany : rows.any (fun r => r.id == i) = false := by
          rw [List.any_eq_false]
          intro r hr
          have := List.find?_eq_none.mp hf r hr
          simpa using this
        rw [List.reduceOption_cons_of_none]
        rw [List.filter_cons_of_neg (by simp [hany])]
        exact ih
      · next r =>
        have hpr := List.find?_some hf
        have hmem : r ∈ rows := List.mem_of_find?_eq_some hf
        have hany : rows.any (fun r => r.id == i) = true := by
          rw [List.any_eq_true]
          exact ⟨r, hmem, hpr⟩
        rw [List.reduceOption_cons_of_some, List.filter_cons_of_pos (by simp [hany])]
        rw [List.map_cons]
        have ih2 : List.map ResultRow.id
            ((List.map (fun i => List.find? (fun r => r.id == i) rows) rest).reduceOption) =
            List.filter (fun i => rows.any fun r => r.id == i) rest := ih
        rw [ih2]
        congr 1
        exact eq_of_beq hpr
  · induction ids with
    | nil => intro r hr; exact absurd hr (List.not_mem_nil r)
    | cons i rest ih =>
      intro r hr
      revert hr
      show r ∈ (rows.find? (fun r => r.id == i) :: rest.map _).reduceOption → _
      cases hf : rows.find? (fun r => r.id == i)
      · rw [List.reduceOption_cons_of_none]
        exact ih r
      · next r2 =>
        rw [List.reduceOption_cons_of_some]
        intro hr
        rcases List.mem_cons.mp hr with rfl | hr2
        · exact List.mem_of_find?_eq_some hf
        · exact ih r hr2
  · induction ids with
    | nil => simp [hydrate]
    | cons i rest ih =>
      show ((rows.find? (fun r => r.id == i) :: rest.map _).reduceOption).length ≤ _
      cases hf : rows.find? (fun r => r.id == i)
      · rw [List.reduceOption_cons_of_none]
        exact Nat.le_succ_of_le ih
      · rw [List.reduceOption_cons_of_some]
        simpa using Nat.succ_le_succ ih

lemma lexContribution_608 : lexContribution 60 0 (-5 : ℝ) = 1/61 * (1 + Real.log 6) := by
  unfold lexContribution
  norm_num [max_def]

lemma vecContribution_608 : vecContribution 60 0 (1/10 : ℝ) = 1/61 * (9/10) := by
  unfold vecContribution
  norm_num

lemma fuseScores_single :
    fuseScores [(7, (-5 : ℝ))] [(7, (1/10 : ℝ))] =
      [(7, 0 + lexContribution 60 0 (-5) + vecContribution 60 0 (1/10))] := by
  unfold fuseScores
  simp [List.enum, List.enumFrom, mapSet, mapGetD]

/-- C1: with lexical list `[(A, score = -5)]` and vector list
`[(A, distance = 0.1)]` and `k = 60`, A's fused score is
`1/61 * (1 + ln 6) + 1/61 * 0.9` — the sum of the lexical contribution
`1/(k+r+1) * (1 + ln(1 + max(0, -s)))` and the vector contribution
`1/(k+r+1) * (1 - d)` at rank 0 — and A is the sole, top-ranked result of
the search. -/
theorem rrf_fusion_example :
    mapGetD (fuseScores [(7, (-5 : ℝ))] [(7, (1/10 : ℝ))]) 7 =
      1/61 * (1 + Real.log 6) + 1/61 * (9/10) ∧
    searchHybridModel [(7, (-5 : ℝ))] [(7, (1/10 : ℝ))] 10 [⟨7, "h", "c", "p"⟩] =
      [⟨7, "h", "c", "p"⟩] := by
  constructor
  · rw [fuseScores_single]
    show (0 : ℝ) + lexContribution 60 0 (-5) + vecContribution 60 0 (1/10) = _
    rw [lexContribution_608, vecContribution_608]
    ring
  · unfold searchHybridModel rankedIds
    rw [fuseScores_single]
    rw [show List.insertionSort (fun a b : ℕ × ℝ => b.2 ≤ a.2)
        [(7, 0 + lexContribution 60 0 (-5) + vecContribution 60 0 (1/10))] =
        [(7, 0 + lexContribution 60 0 (-5) + vecContribution 60 0 (1/10))] from rfl]
    show hydrate [7] [⟨7, "h", "c", "p"⟩] = [⟨7, "h", "c", "p"⟩]
    decide

/-- C8 counterexample: at distance 2 the vector contribution strictly
decreases when the candidate moves from rank 1 to the better rank 0. -/
theorem vecContribution_not_rank_monotone :
    vecContribution 60 0 (2 : ℝ) < vecContribution 60 1 (2 : ℝ) := by
  unfold vecContribution
  norm_num

/-- C8 (amended): moving a candidate to a better (lower) zero-based rank
never decreases its lexical contribution, and never decreases its vector
contribution provided the distance is at most 1 (for `d > 1` the factor
`1 - d` is negative and a better rank strictly decreases the
contribution, as the counterexample shows). -/
theorem rrf_contribution_rank_monotone (k r r2 : ℕ) (s d : ℝ) (hr : r ≤ r2) :
    lexContribution k r2 s ≤ lexContribution k r s ∧
    (d ≤ 1 → vecContribution k r2 d ≤ vecContribution k r d) := by
  have hpos : (0:ℝ) < (k:ℝ) + r + 1 := by positivity
  have hcast : ((r : ℝ)) ≤ (r2 : ℝ) := Nat.cast_le.mpr hr
  have hfrac : (1:ℝ)/((k:ℝ)+(r2:ℝ)+1) ≤ 1/((k:ℝ)+(r:ℝ)+1) := by
    apply one_div_le_one_div_of_le hpos
    linarith
  constructor
  · unfold lexContribution
    apply mul_le_mul_of_nonneg_right hfrac
    have hlog : (0:ℝ) ≤ Real.log (1 + max 0 (-s)) := by
      apply Real.log_nonneg
      have := le_max_left (0:ℝ) (-s)
      linarith
    linarith
  · intro hd
    unfold vecContribution
    apply mul_le_mul_of_nonneg_right hfrac
    linarith

/-- Witness for the amended C8 at concrete ranks, score and distance. -/
theorem rrf_contribution_rank_monotone_witness :
    lexContribution 60 1 (-5 : ℝ) ≤ lexContribution 60 0 (-5 : ℝ) ∧
    vecContribution 60 1 (1/2 : ℝ) ≤ vecContribution 60 0 (1/2 : ℝ) :=
  ⟨(rrf_contribution_rank_monotone 60 0 1 (-5) (1/2) (by norm_num)).1,
   (rrf_contribution_rank_monotone 60 0 1 (-5) (1/2) (by norm_num)).2 (by norm_num)⟩

end KnowledgeMind
